import Mathlib

/-!
Verification of `src/distributions/float.rs`: samplers converting one raw
unsigned integer draw into an IEEE-754 float in `[0,1)` (`Uniform`),
`(0,1)` (`Open01`) or `[0,1]` (`Closed01`).

Floats are embedded as exact rationals together with an explicit
round-to-nearest-even operation `fpRound mb emin` (mb = mantissa bits,
emin = least ulp exponent, i.e. the ulp of the subnormal range:
binary32 has mb = 23, emin = -149; binary64 has mb = 52, emin = -1074).
Every floating-point arithmetic operation of the source is modelled as the
exact rational operation followed by `fpRound`.  Overflow to infinity is not
modelled: every value arising in this file is far below the overflow
threshold, and the rounding function is only ever applied there.
The `transmute` reinterpretation of an integer bit pattern as a float is
modelled by `fpDecode`, which decodes sign / biased exponent / mantissa
fields exactly as IEEE-754 does for finite values (NaN / infinity patterns,
exponent field all ones, carry no rational value and decode to the junk
value 0; the theorems for claim C2 show the samplers never produce such a
pattern).
-/

namespace RandFloat

/-- Round a rational to the nearest integer, ties going to the even
integer (the IEEE-754 default rounding direction). -/
def rne (r : ℚ) : ℤ :=
  if r - (⌊r⌋ : ℚ) < 1/2 then ⌊r⌋
  else if 1/2 < r - (⌊r⌋ : ℚ) then ⌊r⌋ + 1
  else if 2 ∣ ⌊r⌋ then ⌊r⌋ else ⌊r⌋ + 1

/-- Exponent of the unit in the last place used when rounding `q`:
`log2 |q| - mb` in the normal range, clamped below at the fixed subnormal
ulp exponent `emin`. -/
def ulpExp (mb : ℕ) (emin : ℤ) (q : ℚ) : ℤ := max (Int.log 2 |q| - mb) emin

/-- IEEE-754 round to nearest, ties to even: round `q` to the nearest
integer multiple of `2 ^ ulpExp mb emin q`. -/
def fpRound (mb : ℕ) (emin : ℤ) (q : ℚ) : ℚ :=
  (rne (q / 2 ^ ulpExp mb emin q) : ℚ) * 2 ^ ulpExp mb emin q

/-- Decode an IEEE-754 bit pattern with `mb` mantissa bits, `eb` exponent
bits and the given exponent bias into its exact rational value.  Patterns
whose exponent field is all ones (infinities and NaNs) have no rational
value and decode to the junk value 0; the theorem for claim C2 shows the
samplers never produce such a pattern. -/
def fpDecode (mb eb : ℕ) (bias : ℤ) (bits : ℕ) : ℚ :=
  let m := bits % 2 ^ mb
  let e := bits / 2 ^ mb % 2 ^ eb
  let s := bits / 2 ^ (mb + eb) % 2
  let mag : ℚ :=
    if e = 0 then (m : ℚ) * 2 ^ (1 - bias - mb)
    else if e = 2 ^ eb - 1 then 0
    else ((2 ^ mb + m : ℕ) : ℚ) * 2 ^ ((e : ℤ) - bias - mb)
  if s = 1 then -mag else mag

/-- Rounding of an exact rational to the nearest binary32 value. -/
def round32 (q : ℚ) : ℚ := fpRound 23 (-149) q

/-- Rounding of an exact rational to the nearest binary64 value. -/
def round64 (q : ℚ) : ℚ := fpRound 52 (-1074) q

/-- Reinterpretation of a `u32` bit pattern as a binary32 value
(`mem::transmute` in `float.rs` line 82). -/
def decode32 (bits : ℕ) : ℚ := fpDecode 23 8 127 bits

/-- Reinterpretation of a `u64` bit pattern as a binary64 value
(`mem::transmute` in `float.rs` line 91). -/
def decode64 (bits : ℕ) : ℚ := fpDecode 52 11 1023 bits

/-- Constant `UPPER_MASK` of `impl Distribution<f32> for Uniform`
(`float.rs` line 79). -/
def UPPER_MASK32 : ℕ := 0x3F800000

/-- Constant `LOWER_MASK` of `impl Distribution<f32> for Uniform`
(`float.rs` line 80). -/
def LOWER_MASK32 : ℕ := 0x7FFFFF

/-- Constant `UPPER_MASK` of `impl Distribution<f64> for Uniform`
(`float.rs` line 88). -/
def UPPER_MASK64 : ℕ := 0x3FF0000000000000

/-- Constant `LOWER_MASK` of `impl Distribution<f64> for Uniform`
(`float.rs` line 89). -/
def LOWER_MASK64 : ℕ := 0xFFFFFFFFFFFFF

/-- Constant `SCALE` of the f32 instantiation of `float_impls!`
(`float.rs` line 103): `(1u64 << 23) as f32`. -/
def SCALE32 : ℚ := round32 ((1 <<< 23 : ℕ) : ℚ)

/-- Constant `SCALE` of the f64 instantiation of `float_impls!`
(`float.rs` line 103): `(1u64 << 52) as f64`. -/
def SCALE64 : ℚ := round64 ((1 <<< 52 : ℕ) : ℚ)

/-- `impl Distribution<f32> for Uniform::sample` (`float.rs` lines 78-84)
as a pure function of the one raw `u32` draw `r`: mask the low 23 bits into
a fixed `[1,2)` exponent pattern, reinterpret as a float, subtract `1.0`. -/
def sampleUniform32 (r : ℕ) : ℚ :=
  round32 (decode32 (UPPER_MASK32 ||| (r &&& LOWER_MASK32)) - 1)

/-- `impl Distribution<f64> for Uniform::sample` (`float.rs` lines 87-93)
as a pure function of the one raw `u64` draw `r`. -/
def sampleUniform64 (r : ℕ) : ℚ :=
  round64 (decode64 (UPPER_MASK64 ||| (r &&& LOWER_MASK64)) - 1)

/-- `impl Distribution<f32> for Open01::sample` (`float.rs` lines 105-113)
as a pure function of the raw draw: the uniform sample plus `0.5 / SCALE`. -/
def sampleOpen32 (r : ℕ) : ℚ :=
  round32 (sampleUniform32 r + round32 (1/2 / SCALE32))

/-- `impl Distribution<f64> for Open01::sample` (`float.rs` lines 105-113)
as a pure function of the raw draw. -/
def sampleOpen64 (r : ℕ) : ℚ :=
  round64 (sampleUniform64 r + round64 (1/2 / SCALE64))

/-- `impl Distribution<f32> for Closed01::sample` (`float.rs` lines 115-122)
as a pure function of the raw draw: the uniform sample times
`SCALE / (SCALE - 1.0)`, evaluated as `(x * SCALE) / (SCALE - 1.0)`. -/
def sampleClosed32 (r : ℕ) : ℚ :=
  round32 (round32 (sampleUniform32 r * SCALE32) / round32 (SCALE32 - 1))

/-- `impl Distribution<f64> for Closed01::sample` (`float.rs` lines 115-122)
as a pure function of the raw draw. -/
def sampleClosed64 (r : ℕ) : ℚ :=
  round64 (round64 (sampleUniform64 r * SCALE64) / round64 (SCALE64 - 1))

/-- The external `Rng` collaborator (spec section 6): an infinite stream of
raw integers together with a cursor.  `next_u32` / `next_u64` return the
current draw truncated to the width and advance the cursor by one. -/
structure BitSource where
  vals : ℕ → ℕ
  pos : ℕ

/-- One `next_u32` call on the bit source. -/
def next_u32 (s : BitSource) : ℕ × BitSource :=
  (s.vals s.pos % 2 ^ 32, ⟨s.vals, s.pos + 1⟩)

/-- One `next_u64` call on the bit source. -/
def next_u64 (s : BitSource) : ℕ × BitSource :=
  (s.vals s.pos % 2 ^ 64, ⟨s.vals, s.pos + 1⟩)

/-- Stateful `Uniform::sample::<f32>`: draws once via `next_u32` and
transforms the drawn integer (`float.rs` line 81). -/
def sampleUniform32S (s : BitSource) : ℚ × BitSource :=
  let rs := next_u32 s
  (sampleUniform32 rs.1, rs.2)

/-- Stateful `Uniform::sample::<f64>`: draws once via `next_u64`
(`float.rs` line 90). -/
def sampleUniform64S (s : BitSource) : ℚ × BitSource :=
  let rs := next_u64 s
  (sampleUniform64 rs.1, rs.2)

/-- Stateful `Open01::sample::<f32>`: `rng.gen::<f32>()` (one uniform
sample, hence one `next_u32`) plus the half-ulp shift (`float.rs` 111-112). -/
def sampleOpen32S (s : BitSource) : ℚ × BitSource :=
  let xs := sampleUniform32S s
  (round32 (xs.1 + round32 (1/2 / SCALE32)), xs.2)

/-- Stateful `Open01::sample::<f64>`. -/
def sampleOpen64S (s : BitSource) : ℚ × BitSource :=
  let xs := sampleUniform64S s
  (round64 (xs.1 + round64 (1/2 / SCALE64)), xs.2)

/-- Stateful `Closed01::sample::<f32>`: `rng.gen::<f32>()` rescaled by
`SCALE / (SCALE - 1.0)` (`float.rs` 120-121). -/
def sampleClosed32S (s : BitSource) : ℚ × BitSource :=
  let xs := sampleUniform32S s
  (round32 (round32 (xs.1 * SCALE32) / round32 (SCALE32 - 1)), xs.2)

/-- Stateful `Closed01::sample::<f64>`. -/
def sampleClosed64S (s : BitSource) : ℚ × BitSource :=
  let xs := sampleUniform64S s
  (round64 (round64 (xs.1 * SCALE64) / round64 (SCALE64 - 1)), xs.2)

/-- Machine epsilon of binary32 (`core::f32::EPSILON`), exactly `2^-23`. -/
def EPSILON32 : ℚ := 2 ^ (-23 : ℤ)

/-- Machine epsilon of binary64 (`core::f64::EPSILON`), exactly `2^-52`. -/
def EPSILON64 : ℚ := 2 ^ (-52 : ℤ)

theorem rne_intCast (n : ℤ) : rne (n : ℚ) = n := by
  simp [rne]

theorem floor_le_rne (r : ℚ) : ⌊r⌋ ≤ rne r := by
  unfold rne; split_ifs <;> omega

theorem rne_le_floor_add_one (r : ℚ) : rne r ≤ ⌊r⌋ + 1 := by
  unfold rne; split_ifs <;> omega

theorem rne_nonneg {r : ℚ} (h : 0 ≤ r) : 0 ≤ rne r :=
  le_trans (Int.floor_nonneg.mpr h) (floor_le_rne r)

theorem rne_le (r : ℚ) : (rne r : ℚ) ≤ r + 1/2 := by
  have h1 : (⌊r⌋ : ℚ) ≤ r := Int.floor_le r
  unfold rne
  split_ifs with hf hg hd <;> push_cast <;> linarith

theorem le_rne (r : ℚ) : r - 1/2 ≤ (rne r : ℚ) := by
  have h1 : r - 1 < (⌊r⌋ : ℚ) := Int.sub_one_lt_floor r
  unfold rne
  split_ifs with hf hg hd <;> push_cast <;> linarith

theorem abs_rne_sub (r : ℚ) : |(rne r : ℚ) - r| ≤ 1/2 := by
  rw [abs_le]
  constructor
  · linarith [le_rne r]
  · linarith [rne_le r]

theorem rne_mono {r s : ℚ} (h : r ≤ s) : rne r ≤ rne s := by
  rcases lt_or_ge ⌊r⌋ ⌊s⌋ with hf | hf
  · have h1 := rne_le_floor_add_one r
    have h2 := floor_le_rne s
    omega
  · have hfe : ⌊r⌋ = ⌊s⌋ := le_antisymm (Int.floor_le_floor h) hf
    have hfr : s - (⌊s⌋ : ℚ) ≥ r - (⌊s⌋ : ℚ) := by linarith
    unfold rne
    rw [hfe]
    split_ifs <;> first | omega | linarith

theorem fpRound_zero (mb : ℕ) (emin : ℤ) : fpRound mb emin 0 = 0 := by
  norm_num [fpRound, rne]

theorem fpRound_exact (mb : ℕ) (emin : ℤ) (n k : ℤ) (hk : emin ≤ k)
    (hn : |n| < 2 ^ (mb + 1)) :
    fpRound mb emin ((n : ℚ) * 2 ^ k) = (n : ℚ) * 2 ^ k := by
  rcases eq_or_ne n 0 with hn0 | hn0
  · subst hn0; simpa using fpRound_zero mb emin
  have h2k : (0:ℚ) < 2 ^ k := zpow_pos (by norm_num) k
  have hq_pos : 0 < |(n : ℚ) * 2 ^ k| := by
    refine abs_pos.mpr (mul_ne_zero ?_ (ne_of_gt h2k))
    exact_mod_cast hn0
  have habs : |(n : ℚ) * 2 ^ k| = (|n| : ℤ) * 2 ^ k := by
    rw [abs_mul, abs_of_pos h2k, Int.cast_abs]
  have hlt : |(n : ℚ) * 2 ^ k| < ((2:ℕ) : ℚ) ^ ((mb : ℤ) + 1 + k) := by
    rw [habs]
    have hcast : ((2:ℕ) : ℚ) = 2 := by norm_num
    rw [hcast, zpow_add₀ (by norm_num : (2:ℚ) ≠ 0)]
    refine mul_lt_mul_of_pos_right ?_ h2k
    have : ((|n| : ℤ) : ℚ) < ((2 ^ (mb + 1) : ℤ) : ℚ) := by exact_mod_cast hn
    calc ((|n| : ℤ) : ℚ) < ((2 ^ (mb + 1) : ℤ) : ℚ) := this
      _ = 2 ^ ((mb : ℤ) + 1) := by
          push_cast
          rw [← zpow_natCast (2:ℚ) (mb + 1)]
          push_cast
          ring_nf
  have hlog : Int.log 2 |(n : ℚ) * 2 ^ k| < (mb : ℤ) + 1 + k :=
    (Int.lt_zpow_iff_log_lt (by norm_num) hq_pos).mp hlt
  have hK : ulpExp mb emin ((n : ℚ) * 2 ^ k) ≤ k := by
    refine max_le (by omega) hk
  set K := ulpExp mb emin ((n : ℚ) * 2 ^ k) with hKdef
  set j : ℕ := (k - K).toNat with hjdef
  have hj : (j : ℤ) = k - K := Int.toNat_of_nonneg (by omega)
  have hsplit : (2:ℚ) ^ k = 2 ^ K * 2 ^ (j : ℤ) := by
    rw [← zpow_add₀ (by norm_num : (2:ℚ) ≠ 0)]
    congr 1
    omega
  have hdiv : (n : ℚ) * 2 ^ k / 2 ^ K = ((n * 2 ^ j : ℤ) : ℚ) := by
    rw [hsplit]
    have h2K : (2:ℚ) ^ K ≠ 0 := ne_of_gt (zpow_pos (by norm_num) K)
    push_cast
    rw [← zpow_natCast (2:ℚ) j]
    field_simp
    ring
  rw [fpRound, ← hKdef, hdiv, rne_intCast]
  push_cast
  rw [← zpow_natCast (2:ℚ) j, mul_assoc, ← zpow_add₀ (by norm_num : (2:ℚ) ≠ 0)]
  congr 2
  omega

theorem fpRound_nonneg (mb : ℕ) (emin : ℤ) {q : ℚ} (h : 0 ≤ q) :
    0 ≤ fpRound mb emin q := by
  have h2 : (0:ℚ) ≤ 2 ^ ulpExp mb emin q := zpow_nonneg (by norm_num) _
  have hr := rne_nonneg (div_nonneg h h2)
  exact mul_nonneg (by exact_mod_cast hr) h2

theorem fpRound_abs_sub (mb : ℕ) (emin : ℤ) (q : ℚ) :
    |fpRound mb emin q - q| ≤ 2 ^ (ulpExp mb emin q - 1) := by
  set K := ulpExp mb emin q with hKdef
  have h2 : (0:ℚ) < 2 ^ K := zpow_pos (by norm_num) K
  have key : fpRound mb emin q - q = ((rne (q / 2 ^ K) : ℚ) - q / 2 ^ K) * 2 ^ K := by
    rw [fpRound, ← hKdef]
    field_simp
  rw [key, abs_mul, abs_of_pos h2]
  calc |(rne (q / 2 ^ K) : ℚ) - q / 2 ^ K| * 2 ^ K
      ≤ (1/2) * 2 ^ K := mul_le_mul_of_nonneg_right (abs_rne_sub _) h2.le
    _ = 2 ^ (K - 1) := by
        rw [zpow_sub₀ (by norm_num : (2:ℚ) ≠ 0)]
        norm_num
        ring

theorem fpRound_mono (mb : ℕ) (emin : ℤ) {q1 q2 : ℚ} (h0 : 0 ≤ q1) (h : q1 ≤ q2) :
    fpRound mb emin q1 ≤ fpRound mb emin q2 := by
  rcases eq_or_lt_of_le h0 with h0e | h0p
  · rw [← h0e, fpRound_zero]
    exact fpRound_nonneg mb emin (le_trans h0 h)
  have h2p : 0 < q2 := lt_of_lt_of_le h0p h
  have habs1 : |q1| = q1 := abs_of_pos h0p
  have habs2 : |q2| = q2 := abs_of_pos h2p
  have hlog : Int.log 2 q1 ≤ Int.log 2 q2 := Int.log_mono_right h0p h
  have e1 : ulpExp mb emin q1 = max (Int.log 2 q1 - mb) emin := by rw [ulpExp, habs1]
  have e2 : ulpExp mb emin q2 = max (Int.log 2 q2 - mb) emin := by rw [ulpExp, habs2]
  have hKle : ulpExp mb emin q1 ≤ ulpExp mb emin q2 := by omega
  have h2K1 : (0:ℚ) < 2 ^ ulpExp mb emin q1 := zpow_pos (by norm_num) _
  have h2K2 : (0:ℚ) < 2 ^ ulpExp mb emin q2 := zpow_pos (by norm_num) _
  rcases eq_or_lt_of_le hKle with hKeq | hKlt
  · rw [fpRound, fpRound, ← hKeq]
    refine mul_le_mul_of_nonneg_right ?_ h2K1.le
    have hd : q1 / 2 ^ ulpExp mb emin q1 ≤ q2 / 2 ^ ulpExp mb emin q1 := by gcongr
    exact_mod_cast rne_mono hd
  · -- distinct ulp exponents: chain both sides through 2 ^ (K2 + mb)
    have hq1lt : q1 < (2:ℚ) ^ (ulpExp mb emin q1 + mb + 1) := by
      calc q1 < ((2:ℕ):ℚ) ^ (Int.log 2 q1 + 1) :=
            Int.lt_zpow_succ_log_self (by norm_num) q1
        _ = (2:ℚ) ^ (Int.log 2 q1 + 1) := by norm_num
        _ ≤ (2:ℚ) ^ (ulpExp mb emin q1 + mb + 1) :=
            zpow_le_zpow_right₀ (by norm_num) (by omega)
    have hrne1 : rne (q1 / 2 ^ ulpExp mb emin q1) ≤ 2 ^ (mb + 1) := by
      have hdivlt : q1 / 2 ^ ulpExp mb emin q1 < ((2 ^ (mb + 1) : ℤ) : ℚ) := by
        rw [div_lt_iff₀ h2K1]
        push_cast
        rw [← zpow_natCast (2:ℚ) (mb + 1), ← zpow_add₀ (by norm_num : (2:ℚ) ≠ 0)]
        calc q1 < (2:ℚ) ^ (ulpExp mb emin q1 + mb + 1) := hq1lt
          _ = (2:ℚ) ^ (((mb:ℤ) + 1) + ulpExp mb emin q1) := by ring_nf
      have hfl := Int.floor_lt.mpr hdivlt
      have hub := rne_le_floor_add_one (q1 / 2 ^ ulpExp mb emin q1)
      omega
    have hub : fpRound mb emin q1 ≤ (2:ℚ) ^ (ulpExp mb emin q2 + mb) := by
      rw [fpRound]
      calc (rne (q1 / 2 ^ ulpExp mb emin q1) : ℚ) * 2 ^ ulpExp mb emin q1
          ≤ ((2 ^ (mb + 1) : ℤ) : ℚ) * 2 ^ ulpExp mb emin q1 := by
            refine mul_le_mul_of_nonneg_right ?_ h2K1.le
            exact_mod_cast hrne1
        _ = (2:ℚ) ^ (ulpExp mb emin q1 + mb + 1) := by
            push_cast
            rw [← zpow_natCast (2:ℚ) (mb + 1), ← zpow_add₀ (by norm_num : (2:ℚ) ≠ 0)]
            congr 1
            push_cast
            ring
        _ ≤ (2:ℚ) ^ (ulpExp mb emin q2 + mb) :=
            zpow_le_zpow_right₀ (by norm_num) (by omega)
    have hK2eq : ulpExp mb emin q2 = Int.log 2 q2 - mb := by omega
    have hlq2 : (2:ℚ) ^ Int.log 2 q2 ≤ q2 := by
      have hz : ((2:ℕ):ℚ) ^ Int.log 2 q2 ≤ q2 :=
        Int.zpow_log_le_self (by norm_num) h2p
      calc (2:ℚ) ^ Int.log 2 q2 = ((2:ℕ):ℚ) ^ Int.log 2 q2 := by norm_num
        _ ≤ q2 := hz
    have hrne2 : (2 ^ mb : ℤ) ≤ rne (q2 / 2 ^ ulpExp mb emin q2) := by
      have hdivge : ((2 ^ mb : ℤ) : ℚ) ≤ q2 / 2 ^ ulpExp mb emin q2 := by
        rw [le_div_iff₀ h2K2]
        push_cast
        rw [← zpow_natCast (2:ℚ) mb, ← zpow_add₀ (by norm_num : (2:ℚ) ≠ 0)]
        calc (2:ℚ) ^ ((mb:ℤ) + ulpExp mb emin q2) = (2:ℚ) ^ Int.log 2 q2 := by
              congr 1
              omega
          _ ≤ q2 := hlq2
      have hfl := Int.le_floor.mpr hdivge
      have hlb := floor_le_rne (q2 / 2 ^ ulpExp mb emin q2)
      omega
    have hlb : (2:ℚ) ^ (ulpExp mb emin q2 + mb) ≤ fpRound mb emin q2 := by
      rw [fpRound]
      calc (2:ℚ) ^ (ulpExp mb emin q2 + mb)
          = ((2 ^ mb : ℤ) : ℚ) * 2 ^ ulpExp mb emin q2 := by
            push_cast
            rw [← zpow_natCast (2:ℚ) mb, ← zpow_add₀ (by norm_num : (2:ℚ) ≠ 0)]
            congr 1
            ring
        _ ≤ (rne (q2 / 2 ^ ulpExp mb emin q2) : ℚ) * 2 ^ ulpExp mb emin q2 := by
            refine mul_le_mul_of_nonneg_right ?_ h2K2.le
            exact_mod_cast hrne2
    exact le_trans hub hlb

theorem round32_exact_nat (n : ℕ) (k : ℤ) (hk : -149 ≤ k) (hn : n < 2 ^ 24) :
    round32 ((n : ℚ) * 2 ^ k) = (n : ℚ) * 2 ^ k := by
  have h1 : (((n : ℤ)) : ℚ) = (n : ℚ) := by push_cast; ring
  rw [round32, ← h1]
  refine fpRound_exact 23 (-149) n k hk ?_
  rw [abs_of_nonneg (Int.natCast_nonneg n)]
  exact_mod_cast hn

theorem round64_exact_nat (n : ℕ) (k : ℤ) (hk : -1074 ≤ k) (hn : n < 2 ^ 53) :
    round64 ((n : ℚ) * 2 ^ k) = (n : ℚ) * 2 ^ k := by
  have h1 : (((n : ℤ)) : ℚ) = (n : ℚ) := by push_cast; ring
  rw [round64, ← h1]
  refine fpRound_exact 52 (-1074) n k hk ?_
  rw [abs_of_nonneg (Int.natCast_nonneg n)]
  exact_mod_cast hn

theorem decode32_upper (m : ℕ) (hm : m < 2 ^ 23) :
    decode32 (UPPER_MASK32 ||| m) = 1 + (m : ℚ) / 2 ^ 23 := by
  have hor : UPPER_MASK32 ||| m = 2 ^ 23 * 127 + m := by
    rw [UPPER_MASK32, show (0x3F800000 : ℕ) = 2 ^ 23 * 127 by norm_num]
    exact (Nat.mul_add_lt_is_or hm 127).symm
  have h1 : (2 ^ 23 * 127 + m) % 2 ^ 23 = m := by omega
  have h2 : (2 ^ 23 * 127 + m) / 2 ^ 23 % 2 ^ 8 = 127 := by omega
  have h3 : (2 ^ 23 * 127 + m) / 2 ^ (23 + 8) % 2 = 0 := by omega
  rw [hor, decode32]
  simp only [fpDecode, h1, h2, h3]
  norm_num
  ring

theorem decode64_upper (m : ℕ) (hm : m < 2 ^ 52) :
    decode64 (UPPER_MASK64 ||| m) = 1 + (m : ℚ) / 2 ^ 52 := by
  have hor : UPPER_MASK64 ||| m = 2 ^ 52 * 1023 + m := by
    rw [UPPER_MASK64, show (0x3FF0000000000000 : ℕ) = 2 ^ 52 * 1023 by norm_num]
    exact (Nat.mul_add_lt_is_or hm 1023).symm
  have h1 : (2 ^ 52 * 1023 + m) % 2 ^ 52 = m := by omega
  have h2 : (2 ^ 52 * 1023 + m) / 2 ^ 52 % 2 ^ 11 = 1023 := by omega
  have h3 : (2 ^ 52 * 1023 + m) / 2 ^ (52 + 11) % 2 = 0 := by omega
  rw [hor, decode64]
  simp only [fpDecode, h1, h2, h3]
  norm_num
  ring

theorem mask32_lt (r : ℕ) : r &&& LOWER_MASK32 < 2 ^ 23 := by
  have h : r &&& LOWER_MASK32 ≤ LOWER_MASK32 := Nat.and_le_right
  rw [LOWER_MASK32] at h ⊢
  omega

theorem mask64_lt (r : ℕ) : r &&& LOWER_MASK64 < 2 ^ 52 := by
  have h : r &&& LOWER_MASK64 ≤ LOWER_MASK64 := Nat.and_le_right
  rw [LOWER_MASK64] at h ⊢
  omega

theorem sampleUniform32_eq (r : ℕ) :
    sampleUniform32 r = ((r &&& LOWER_MASK32 : ℕ) : ℚ) / 2 ^ 23 := by
  have hm := mask32_lt r
  rw [sampleUniform32, decode32_upper _ hm]
  have hsub : (1 : ℚ) + ((r &&& LOWER_MASK32 : ℕ) : ℚ) / 2 ^ 23 - 1
      = ((r &&& LOWER_MASK32 : ℕ) : ℚ) * 2 ^ (-23 : ℤ) := by
    rw [show ((2 : ℚ)) ^ (-23 : ℤ) = ((2 : ℚ) ^ (23 : ℕ))⁻¹ by norm_num]
    field_simp
  rw [hsub, round32_exact_nat _ _ (by norm_num) (by omega),
    show ((2 : ℚ)) ^ (-23 : ℤ) = ((2 : ℚ) ^ (23 : ℕ))⁻¹ by norm_num]
  field_simp

theorem sampleUniform64_eq (r : ℕ) :
    sampleUniform64 r = ((r &&& LOWER_MASK64 : ℕ) : ℚ) / 2 ^ 52 := by
  have hm := mask64_lt r
  rw [sampleUniform64, decode64_upper _ hm]
  have hsub : (1 : ℚ) + ((r &&& LOWER_MASK64 : ℕ) : ℚ) / 2 ^ 52 - 1
      = ((r &&& LOWER_MASK64 : ℕ) : ℚ) * 2 ^ (-52 : ℤ) := by
    rw [show ((2 : ℚ)) ^ (-52 : ℤ) = ((2 : ℚ) ^ (52 : ℕ))⁻¹ by norm_num]
    field_simp
  rw [hsub, round64_exact_nat _ _ (by norm_num) (by omega),
    show ((2 : ℚ)) ^ (-52 : ℤ) = ((2 : ℚ) ^ (52 : ℕ))⁻¹ by norm_num]
  field_simp

theorem SCALE32_eq : SCALE32 = 2 ^ (23 : ℕ) := by
  have h1 : ((1 <<< 23 : ℕ) : ℚ) = ((8388608 : ℕ) : ℚ) * 2 ^ (0 : ℤ) := by
    norm_num [Nat.shiftLeft_eq]
  rw [SCALE32, h1, round32_exact_nat 8388608 0 (by norm_num) (by norm_num)]
  norm_num

theorem SCALE64_eq : SCALE64 = 2 ^ (52 : ℕ) := by
  have h1 : ((1 <<< 52 : ℕ) : ℚ) = ((4503599627370496 : ℕ) : ℚ) * 2 ^ (0 : ℤ) := by
    norm_num [Nat.shiftLeft_eq]
  rw [SCALE64, h1, round64_exact_nat 4503599627370496 0 (by norm_num) (by norm_num)]
  norm_num

theorem halfulp32_eq : round32 (1/2 / SCALE32) = 2 ^ (-24 : ℤ) := by
  rw [SCALE32_eq]
  have h1 : (1:ℚ)/2 / 2 ^ (23 : ℕ) = ((1 : ℕ) : ℚ) * 2 ^ (-24 : ℤ) := by
    rw [show ((2:ℚ)) ^ (-24 : ℤ) = ((2:ℚ) ^ (24 : ℕ))⁻¹ by norm_num]
    norm_num
  rw [h1, round32_exact_nat 1 (-24) (by norm_num) (by norm_num)]
  norm_num

theorem halfulp64_eq : round64 (1/2 / SCALE64) = 2 ^ (-53 : ℤ) := by
  rw [SCALE64_eq]
  have h1 : (1:ℚ)/2 / 2 ^ (52 : ℕ) = ((1 : ℕ) : ℚ) * 2 ^ (-53 : ℤ) := by
    rw [show ((2:ℚ)) ^ (-53 : ℤ) = ((2:ℚ) ^ (53 : ℕ))⁻¹ by norm_num]
    norm_num
  rw [h1, round64_exact_nat 1 (-53) (by norm_num) (by norm_num)]
  norm_num

theorem sampleOpen32_eq (r : ℕ) :
    sampleOpen32 r = (2 * ((r &&& LOWER_MASK32 : ℕ) : ℚ) + 1) / 2 ^ 24 := by
  have hm := mask32_lt r
  rw [sampleOpen32, sampleUniform32_eq, halfulp32_eq]
  have h1 : ((r &&& LOWER_MASK32 : ℕ) : ℚ) / 2 ^ 23 + 2 ^ (-24 : ℤ)
      = ((2 * (r &&& LOWER_MASK32) + 1 : ℕ) : ℚ) * 2 ^ (-24 : ℤ) := by
    rw [show ((2:ℚ)) ^ (-24 : ℤ) = ((2:ℚ) ^ (24 : ℕ))⁻¹ by norm_num]
    push_cast
    field_simp
    ring
  rw [h1, round32_exact_nat _ (-24) (by norm_num) (by omega),
    show ((2:ℚ)) ^ (-24 : ℤ) = ((2:ℚ) ^ (24 : ℕ))⁻¹ by norm_num, div_eq_mul_inv]
  push_cast
  ring

theorem sampleOpen64_eq (r : ℕ) :
    sampleOpen64 r = (2 * ((r &&& LOWER_MASK64 : ℕ) : ℚ) + 1) / 2 ^ 53 := by
  have hm := mask64_lt r
  rw [sampleOpen64, sampleUniform64_eq, halfulp64_eq]
  have h1 : ((r &&& LOWER_MASK64 : ℕ) : ℚ) / 2 ^ 52 + 2 ^ (-53 : ℤ)
      = ((2 * (r &&& LOWER_MASK64) + 1 : ℕ) : ℚ) * 2 ^ (-53 : ℤ) := by
    rw [show ((2:ℚ)) ^ (-53 : ℤ) = ((2:ℚ) ^ (53 : ℕ))⁻¹ by norm_num]
    push_cast
    field_simp
    ring
  rw [h1, round64_exact_nat _ (-53) (by norm_num) (by omega),
    show ((2:ℚ)) ^ (-53 : ℤ) = ((2:ℚ) ^ (53 : ℕ))⁻¹ by norm_num, div_eq_mul_inv]
  push_cast
  ring

theorem scaleSub32_eq : round32 (SCALE32 - 1) = 2 ^ (23 : ℕ) - 1 := by
  rw [SCALE32_eq]
  have h1 : (2:ℚ) ^ (23 : ℕ) - 1 = ((8388607 : ℕ) : ℚ) * 2 ^ (0 : ℤ) := by norm_num
  rw [h1, round32_exact_nat 8388607 0 (by norm_num) (by norm_num)]

theorem scaleSub64_eq : round64 (SCALE64 - 1) = 2 ^ (52 : ℕ) - 1 := by
  rw [SCALE64_eq]
  have h1 : (2:ℚ) ^ (52 : ℕ) - 1 = ((4503599627370495 : ℕ) : ℚ) * 2 ^ (0 : ℤ) := by
    norm_num
  rw [h1, round64_exact_nat 4503599627370495 0 (by norm_num) (by norm_num)]

theorem sampleClosed32_eq (r : ℕ) :
    sampleClosed32 r
      = round32 (((r &&& LOWER_MASK32 : ℕ) : ℚ) / (2 ^ (23 : ℕ) - 1)) := by
  have hm := mask32_lt r
  rw [sampleClosed32, sampleUniform32_eq, scaleSub32_eq, SCALE32_eq]
  have h1 : ((r &&& LOWER_MASK32 : ℕ) : ℚ) / 2 ^ 23 * 2 ^ (23 : ℕ)
      = ((r &&& LOWER_MASK32 : ℕ) : ℚ) * 2 ^ (0 : ℤ) := by
    rw [zpow_zero, mul_one]
    field_simp
  rw [h1, round32_exact_nat _ 0 (by norm_num) (by omega)]
  norm_num

theorem sampleClosed64_eq (r : ℕ) :
    sampleClosed64 r
      = round64 (((r &&& LOWER_MASK64 : ℕ) : ℚ) / (2 ^ (52 : ℕ) - 1)) := by
  have hm := mask64_lt r
  rw [sampleClosed64, sampleUniform64_eq, scaleSub64_eq, SCALE64_eq]
  have h1 : ((r &&& LOWER_MASK64 : ℕ) : ℚ) / 2 ^ 52 * 2 ^ (52 : ℕ)
      = ((r &&& LOWER_MASK64 : ℕ) : ℚ) * 2 ^ (0 : ℤ) := by
    rw [zpow_zero, mul_one]
    field_simp
  rw [h1, round64_exact_nat _ 0 (by norm_num) (by omega)]
  norm_num

theorem round32_one : round32 1 = 1 := by
  have h := round32_exact_nat 1 0 (by norm_num) (by norm_num)
  simpa using h

theorem round64_one : round64 1 = 1 := by
  have h := round64_exact_nat 1 0 (by norm_num) (by norm_num)
  simpa using h

/-- C1: the half-open uniform sampler returns exactly
`(r & mantissa_mask) * 2^-mantissa_bits` for every raw integer `r`: the
reinterpreted value `y` lies in `[1,2)`, the subtraction `y - 1.0` is exact
(rounding it is the identity), and the result lies in `[0,1)`, at both
precisions. -/
theorem C1_uniform_exact :
    ∀ r : ℕ,
      sampleUniform32 r = ((r &&& LOWER_MASK32 : ℕ) : ℚ) * 2 ^ (-23 : ℤ)
      ∧ 1 ≤ decode32 (UPPER_MASK32 ||| (r &&& LOWER_MASK32))
      ∧ decode32 (UPPER_MASK32 ||| (r &&& LOWER_MASK32)) < 2
      ∧ round32 (decode32 (UPPER_MASK32 ||| (r &&& LOWER_MASK32)) - 1)
          = decode32 (UPPER_MASK32 ||| (r &&& LOWER_MASK32)) - 1
      ∧ 0 ≤ sampleUniform32 r ∧ sampleUniform32 r < 1
      ∧ sampleUniform64 r = ((r &&& LOWER_MASK64 : ℕ) : ℚ) * 2 ^ (-52 : ℤ)
      ∧ 1 ≤ decode64 (UPPER_MASK64 ||| (r &&& LOWER_MASK64))
      ∧ decode64 (UPPER_MASK64 ||| (r &&& LOWER_MASK64)) < 2
      ∧ round64 (decode64 (UPPER_MASK64 ||| (r &&& LOWER_MASK64)) - 1)
          = decode64 (UPPER_MASK64 ||| (r &&& LOWER_MASK64)) - 1
      ∧ 0 ≤ sampleUniform64 r ∧ sampleUniform64 r < 1 := by
  intro r
  have hm32 := mask32_lt r
  have hm64 := mask64_lt r
  have hc32 : ((r &&& LOWER_MASK32 : ℕ) : ℚ) < 2 ^ (23 : ℕ) := by exact_mod_cast hm32
  have hc64 : ((r &&& LOWER_MASK64 : ℕ) : ℚ) < 2 ^ (52 : ℕ) := by exact_mod_cast hm64
  have hq32 : (0:ℚ) ≤ ((r &&& LOWER_MASK32 : ℕ) : ℚ) / 2 ^ (23 : ℕ) := by positivity
  have hq64 : (0:ℚ) ≤ ((r &&& LOWER_MASK64 : ℕ) : ℚ) / 2 ^ (52 : ℕ) := by positivity
  have hl32 : ((r &&& LOWER_MASK32 : ℕ) : ℚ) / 2 ^ (23 : ℕ) < 1 :=
    (div_lt_one (by positivity)).mpr hc32
  have hl64 : ((r &&& LOWER_MASK64 : ℕ) : ℚ) / 2 ^ (52 : ℕ) < 1 :=
    (div_lt_one (by positivity)).mpr hc64
  have hd32 := decode32_upper _ hm32
  have hd64 := decode64_upper _ hm64
  have hu32 := sampleUniform32_eq r
  have hu64 := sampleUniform64_eq r
  refine ⟨?_, ?_, ?_, ?_, ?_, ?_, ?_, ?_, ?_, ?_, ?_, ?_⟩
  · rw [hu32, show ((2:ℚ)) ^ (-23 : ℤ) = ((2:ℚ) ^ (23 : ℕ))⁻¹ by norm_num,
      div_eq_mul_inv]
  · rw [hd32]; linarith
  · rw [hd32]; linarith
  · show sampleUniform32 r = _
    rw [hu32, hd32]; ring
  · rw [hu32]; exact hq32
  · rw [hu32]; exact hl32
  · rw [hu64, show ((2:ℚ)) ^ (-52 : ℤ) = ((2:ℚ) ^ (52 : ℕ))⁻¹ by norm_num,
      div_eq_mul_inv]
  · rw [hd64]; linarith
  · rw [hd64]; linarith
  · show sampleUniform64 r = _
    rw [hu64, hd64]; ring
  · rw [hu64]; exact hq64
  · rw [hu64]; exact hl64

/-- C2: for every raw input, the constructed bit pattern has exponent field
127 (f32) / 1023 (f64), which is neither the subnormal field 0 nor the
NaN/infinity field of all ones, so the pattern is a valid finite nonzero
float; its decoded value lies in `[1,2)`; no input reaches an error or
non-finite branch. -/
theorem C2_pattern_valid :
    ∀ r : ℕ,
      (UPPER_MASK32 ||| (r &&& LOWER_MASK32)) / 2 ^ 23 % 2 ^ 8 = 127
      ∧ (127 : ℕ) ≠ 0 ∧ (127 : ℕ) ≠ 2 ^ 8 - 1
      ∧ 1 ≤ decode32 (UPPER_MASK32 ||| (r &&& LOWER_MASK32))
      ∧ decode32 (UPPER_MASK32 ||| (r &&& LOWER_MASK32)) < 2
      ∧ (UPPER_MASK64 ||| (r &&& LOWER_MASK64)) / 2 ^ 52 % 2 ^ 11 = 1023
      ∧ (1023 : ℕ) ≠ 0 ∧ (1023 : ℕ) ≠ 2 ^ 11 - 1
      ∧ 1 ≤ decode64 (UPPER_MASK64 ||| (r &&& LOWER_MASK64))
      ∧ decode64 (UPPER_MASK64 ||| (r &&& LOWER_MASK64)) < 2 := by
  intro r
  have hm32 := mask32_lt r
  have hm64 := mask64_lt r
  have hor32 : UPPER_MASK32 ||| (r &&& LOWER_MASK32)
      = 2 ^ 23 * 127 + (r &&& LOWER_MASK32) := by
    rw [UPPER_MASK32, show (0x3F800000 : ℕ) = 2 ^ 23 * 127 by norm_num]
    exact (Nat.mul_add_lt_is_or hm32 127).symm
  have hor64 : UPPER_MASK64 ||| (r &&& LOWER_MASK64)
      = 2 ^ 52 * 1023 + (r &&& LOWER_MASK64) := by
    rw [UPPER_MASK64, show (0x3FF0000000000000 : ℕ) = 2 ^ 52 * 1023 by norm_num]
    exact (Nat.mul_add_lt_is_or hm64 1023).symm
  have hc32 : ((r &&& LOWER_MASK32 : ℕ) : ℚ) < 2 ^ (23 : ℕ) := by exact_mod_cast hm32
  have hc64 : ((r &&& LOWER_MASK64 : ℕ) : ℚ) < 2 ^ (52 : ℕ) := by exact_mod_cast hm64
  have hq32 : (0:ℚ) ≤ ((r &&& LOWER_MASK32 : ℕ) : ℚ) / 2 ^ (23 : ℕ) := by positivity
  have hq64 : (0:ℚ) ≤ ((r &&& LOWER_MASK64 : ℕ) : ℚ) / 2 ^ (52 : ℕ) := by positivity
  have hl32 : ((r &&& LOWER_MASK32 : ℕ) : ℚ) / 2 ^ (23 : ℕ) < 1 :=
    (div_lt_one (by positivity)).mpr hc32
  have hl64 : ((r &&& LOWER_MASK64 : ℕ) : ℚ) / 2 ^ (52 : ℕ) < 1 :=
    (div_lt_one (by positivity)).mpr hc64
  have hd32 := decode32_upper _ hm32
  have hd64 := decode64_upper _ hm64
  refine ⟨?_, by norm_num, by norm_num, ?_, ?_, ?_, by norm_num, by norm_num, ?_, ?_⟩
  · rw [hor32]; omega
  · rw [hd32]; linarith
  · rw [hd32]; linarith
  · rw [hor64]; omega
  · rw [hd64]; linarith
  · rw [hd64]; linarith

/-- C3: the Open01 sampler produces a value strictly between 0 and 1 for
every raw input, including the all-zeros and all-ones patterns, at both
precisions. -/
theorem C3_open_strict :
    ∀ r : ℕ, 0 < sampleOpen32 r ∧ sampleOpen32 r < 1
      ∧ 0 < sampleOpen64 r ∧ sampleOpen64 r < 1 := by
  intro r
  have hm32 := mask32_lt r
  have hm64 := mask64_lt r
  have hn32 : 2 * (r &&& LOWER_MASK32) + 1 < 2 ^ 24 := by omega
  have hn64 : 2 * (r &&& LOWER_MASK64) + 1 < 2 ^ 53 := by omega
  have hq32 : 2 * ((r &&& LOWER_MASK32 : ℕ) : ℚ) + 1 < 2 ^ (24 : ℕ) := by
    exact_mod_cast hn32
  have hq64 : 2 * ((r &&& LOWER_MASK64 : ℕ) : ℚ) + 1 < 2 ^ (53 : ℕ) := by
    exact_mod_cast hn64
  rw [sampleOpen32_eq, sampleOpen64_eq]
  refine ⟨by positivity, (div_lt_one (by positivity)).mpr hq32,
    by positivity, (div_lt_one (by positivity)).mpr hq64⟩

/-- C4: the Closed01 sampler stays within `[0,1]` for every raw input and
attains both endpoints exactly: the all-zeros draw maps to `0.0` and the
all-ones draw maps to `1.0` after the floating-point multiply and divide,
at both precisions. -/
theorem C4_closed_endpoints :
    (∀ r : ℕ, 0 ≤ sampleClosed32 r ∧ sampleClosed32 r ≤ 1
      ∧ 0 ≤ sampleClosed64 r ∧ sampleClosed64 r ≤ 1)
    ∧ sampleClosed32 0 = 0 ∧ sampleClosed64 0 = 0
    ∧ sampleClosed32 (2 ^ 32 - 1) = 1 ∧ sampleClosed64 (2 ^ 64 - 1) = 1 := by
  refine ⟨?_, ?_, ?_, ?_, ?_⟩
  · intro r
    have hm32 := mask32_lt r
    have hm64 := mask64_lt r
    have hq32 : (0:ℚ) ≤ ((r &&& LOWER_MASK32 : ℕ) : ℚ) / (2 ^ (23 : ℕ) - 1) := by
      positivity
    have hq64 : (0:ℚ) ≤ ((r &&& LOWER_MASK64 : ℕ) : ℚ) / (2 ^ (52 : ℕ) - 1) := by
      positivity
    have hle32 : ((r &&& LOWER_MASK32 : ℕ) : ℚ) / (2 ^ (23 : ℕ) - 1) ≤ 1 := by
      rw [div_le_one (by norm_num)]
      have h1 : (r &&& LOWER_MASK32) ≤ 2 ^ 23 - 1 := by omega
      calc ((r &&& LOWER_MASK32 : ℕ) : ℚ) ≤ ((2 ^ 23 - 1 : ℕ) : ℚ) := by
            exact_mod_cast h1
        _ = 2 ^ (23 : ℕ) - 1 := by norm_num
    have hle64 : ((r &&& LOWER_MASK64 : ℕ) : ℚ) / (2 ^ (52 : ℕ) - 1) ≤ 1 := by
      rw [div_le_one (by norm_num)]
      have h1 : (r &&& LOWER_MASK64) ≤ 2 ^ 52 - 1 := by omega
      calc ((r &&& LOWER_MASK64 : ℕ) : ℚ) ≤ ((2 ^ 52 - 1 : ℕ) : ℚ) := by
            exact_mod_cast h1
        _ = 2 ^ (52 : ℕ) - 1 := by norm_num
    rw [sampleClosed32_eq, sampleClosed64_eq]
    refine ⟨fpRound_nonneg _ _ hq32, ?_, fpRound_nonneg _ _ hq64, ?_⟩
    · calc round32 (((r &&& LOWER_MASK32 : ℕ) : ℚ) / (2 ^ (23 : ℕ) - 1))
          ≤ round32 1 := fpRound_mono _ _ hq32 hle32
        _ = 1 := round32_one
    · calc round64 (((r &&& LOWER_MASK64 : ℕ) : ℚ) / (2 ^ (52 : ℕ) - 1))
          ≤ round64 1 := fpRound_mono _ _ hq64 hle64
        _ = 1 := round64_one
  · rw [sampleClosed32_eq, show (0 &&& LOWER_MASK32) = 0 from by simp]
    rw [Nat.cast_zero, zero_div]
    exact fpRound_zero 23 (-149)
  · rw [sampleClosed64_eq, show (0 &&& LOWER_MASK64) = 0 from by simp]
    rw [Nat.cast_zero, zero_div]
    exact fpRound_zero 52 (-1074)
  · rw [sampleClosed32_eq,
      show ((2 ^ 32 - 1) &&& LOWER_MASK32) = 2 ^ 23 - 1 from by decide]
    rw [show (((2 ^ 23 - 1 : ℕ) : ℚ)) / (2 ^ (23 : ℕ) - 1) = 1 by norm_num]
    exact round32_one
  · rw [sampleClosed64_eq,
      show ((2 ^ 64 - 1) &&& LOWER_MASK64) = 2 ^ 52 - 1 from by decide]
    rw [show (((2 ^ 52 - 1 : ℕ) : ℚ)) / (2 ^ (52 : ℕ) - 1) = 1 by norm_num]
    exact round64_one

/-- C5: increasing the masked mantissa integer never decreases the sampled
float, for the Uniform, Open01 and Closed01 samplers at both precisions. -/
theorem C5_monotone :
    ∀ r1 r2 : ℕ,
      ((r1 &&& LOWER_MASK32) ≤ (r2 &&& LOWER_MASK32) →
        sampleUniform32 r1 ≤ sampleUniform32 r2
        ∧ sampleOpen32 r1 ≤ sampleOpen32 r2
        ∧ sampleClosed32 r1 ≤ sampleClosed32 r2)
      ∧ ((r1 &&& LOWER_MASK64) ≤ (r2 &&& LOWER_MASK64) →
        sampleUniform64 r1 ≤ sampleUniform64 r2
        ∧ sampleOpen64 r1 ≤ sampleOpen64 r2
        ∧ sampleClosed64 r1 ≤ sampleClosed64 r2) := by
  intro r1 r2
  constructor
  · intro h
    have hq : ((r1 &&& LOWER_MASK32 : ℕ) : ℚ) ≤ ((r2 &&& LOWER_MASK32 : ℕ) : ℚ) := by
      exact_mod_cast h
    refine ⟨?_, ?_, ?_⟩
    · rw [sampleUniform32_eq, sampleUniform32_eq]
      gcongr
    · rw [sampleOpen32_eq, sampleOpen32_eq]
      gcongr
    · rw [sampleClosed32_eq, sampleClosed32_eq]
      exact fpRound_mono _ _ (by positivity) (by gcongr)
  · intro h
    have hq : ((r1 &&& LOWER_MASK64 : ℕ) : ℚ) ≤ ((r2 &&& LOWER_MASK64 : ℕ) : ℚ) := by
      exact_mod_cast h
    refine ⟨?_, ?_, ?_⟩
    · rw [sampleUniform64_eq, sampleUniform64_eq]
      gcongr
    · rw [sampleOpen64_eq, sampleOpen64_eq]
      gcongr
    · rw [sampleClosed64_eq, sampleClosed64_eq]
      exact fpRound_mono _ _ (by positivity) (by gcongr)

/-- Witness for C5: monotonicity applied at the concrete draws 3 and 7. -/
theorem C5_monotone_witness :
    sampleUniform32 3 ≤ sampleUniform32 7
    ∧ sampleClosed32 3 ≤ sampleClosed32 7
    ∧ sampleUniform64 3 ≤ sampleUniform64 7 :=
  ⟨((C5_monotone 3 7).1 (by decide)).1,
   ((C5_monotone 3 7).1 (by decide)).2.2,
   ((C5_monotone 3 7).2 (by decide)).1⟩

/-- C6: the deterministic edge values of the uniform sampler: a zero draw
gives exactly 0, a draw of 1 gives exactly one machine epsilon, an all-ones
draw gives exactly 1 minus one machine epsilon, at both precisions. -/
theorem C6_uniform_edges :
    sampleUniform32 0 = 0 ∧ sampleUniform64 0 = 0
    ∧ sampleUniform32 1 = EPSILON32 ∧ sampleUniform64 1 = EPSILON64
    ∧ sampleUniform32 (2 ^ 32 - 1) = 1 - EPSILON32
    ∧ sampleUniform64 (2 ^ 64 - 1) = 1 - EPSILON64 := by
  refine ⟨?_, ?_, ?_, ?_, ?_, ?_⟩
  · rw [sampleUniform32_eq, show (0 &&& LOWER_MASK32) = 0 from by simp]
    norm_num
  · rw [sampleUniform64_eq, show (0 &&& LOWER_MASK64) = 0 from by simp]
    norm_num
  · rw [sampleUniform32_eq, show (1 &&& LOWER_MASK32) = 1 from by decide, EPSILON32]
    norm_num
  · rw [sampleUniform64_eq, show (1 &&& LOWER_MASK64) = 1 from by decide, EPSILON64]
    norm_num
  · rw [sampleUniform32_eq,
      show ((2 ^ 32 - 1) &&& LOWER_MASK32) = 2 ^ 23 - 1 from by decide, EPSILON32]
    norm_num
  · rw [sampleUniform64_eq,
      show ((2 ^ 64 - 1) &&& LOWER_MASK64) = 2 ^ 52 - 1 from by decide, EPSILON64]
    norm_num

/-- C7: the deterministic edge values of the Open01 sampler: a zero draw
gives exactly half an epsilon, an all-ones draw gives exactly 1 minus half
an epsilon, and at these inputs the floating-point addition of the half-ulp
shift is exact (rounding it is the identity), at both precisions. -/
theorem C7_open_edges :
    sampleOpen32 0 = EPSILON32 / 2 ∧ sampleOpen64 0 = EPSILON64 / 2
    ∧ sampleOpen32 (2 ^ 32 - 1) = 1 - EPSILON32 / 2
    ∧ sampleOpen64 (2 ^ 64 - 1) = 1 - EPSILON64 / 2
    ∧ round32 (sampleUniform32 0 + round32 (1/2 / SCALE32))
        = sampleUniform32 0 + round32 (1/2 / SCALE32)
    ∧ round32 (sampleUniform32 (2 ^ 32 - 1) + round32 (1/2 / SCALE32))
        = sampleUniform32 (2 ^ 32 - 1) + round32 (1/2 / SCALE32)
    ∧ round64 (sampleUniform64 0 + round64 (1/2 / SCALE64))
        = sampleUniform64 0 + round64 (1/2 / SCALE64)
    ∧ round64 (sampleUniform64 (2 ^ 64 - 1) + round64 (1/2 / SCALE64))
        = sampleUniform64 (2 ^ 64 - 1) + round64 (1/2 / SCALE64) := by
  refine ⟨?_, ?_, ?_, ?_, ?_, ?_, ?_, ?_⟩
  · rw [sampleOpen32_eq, show (0 &&& LOWER_MASK32) = 0 from by simp, EPSILON32]
    norm_num
  · rw [sampleOpen64_eq, show (0 &&& LOWER_MASK64) = 0 from by simp, EPSILON64]
    norm_num
  · rw [sampleOpen32_eq,
      show ((2 ^ 32 - 1) &&& LOWER_MASK32) = 2 ^ 23 - 1 from by decide, EPSILON32]
    norm_num
  · rw [sampleOpen64_eq,
      show ((2 ^ 64 - 1) &&& LOWER_MASK64) = 2 ^ 52 - 1 from by decide, EPSILON64]
    norm_num
  · show sampleOpen32 0 = _
    rw [sampleOpen32_eq, sampleUniform32_eq, halfulp32_eq,
      show (0 &&& LOWER_MASK32) = 0 from by simp]
    norm_num
  · show sampleOpen32 (2 ^ 32 - 1) = _
    rw [sampleOpen32_eq, sampleUniform32_eq, halfulp32_eq,
      show ((2 ^ 32 - 1) &&& LOWER_MASK32) = 2 ^ 23 - 1 from by decide]
    norm_num
  · show sampleOpen64 0 = _
    rw [sampleOpen64_eq, sampleUniform64_eq, halfulp64_eq,
      show (0 &&& LOWER_MASK64) = 0 from by simp]
    norm_num
  · show sampleOpen64 (2 ^ 64 - 1) = _
    rw [sampleOpen64_eq, sampleUniform64_eq, halfulp64_eq,
      show ((2 ^ 64 - 1) &&& LOWER_MASK64) = 2 ^ 52 - 1 from by decide]
    norm_num

/-- C9: each sampler consumes exactly one draw from the bit source of the
matching width: the returned state is the state after one draw (same
stream, cursor advanced by one) and the returned value is a pure function
of the single drawn integer. -/
theorem C9_single_draw :
    ∀ s : BitSource,
      sampleUniform32S s = (sampleUniform32 ((next_u32 s).1), (next_u32 s).2)
      ∧ (sampleUniform32S s).2.vals = s.vals
      ∧ (sampleUniform32S s).2.pos = s.pos + 1
      ∧ sampleUniform64S s = (sampleUniform64 ((next_u64 s).1), (next_u64 s).2)
      ∧ (sampleUniform64S s).2.vals = s.vals
      ∧ (sampleUniform64S s).2.pos = s.pos + 1
      ∧ sampleOpen32S s = (sampleOpen32 ((next_u32 s).1), (next_u32 s).2)
      ∧ (sampleOpen32S s).2.vals = s.vals
      ∧ (sampleOpen32S s).2.pos = s.pos + 1
      ∧ sampleOpen64S s = (sampleOpen64 ((next_u64 s).1), (next_u64 s).2)
      ∧ (sampleOpen64S s).2.vals = s.vals
      ∧ (sampleOpen64S s).2.pos = s.pos + 1
      ∧ sampleClosed32S s = (sampleClosed32 ((next_u32 s).1), (next_u32 s).2)
      ∧ (sampleClosed32S s).2.vals = s.vals
      ∧ (sampleClosed32S s).2.pos = s.pos + 1
      ∧ sampleClosed64S s = (sampleClosed64 ((next_u64 s).1), (next_u64 s).2)
      ∧ (sampleClosed64S s).2.vals = s.vals
      ∧ (sampleClosed64S s).2.pos = s.pos + 1 :=
  fun _ => ⟨rfl, rfl, rfl, rfl, rfl, rfl, rfl, rfl, rfl, rfl, rfl, rfl, rfl,
    rfl, rfl, rfl, rfl, rfl⟩

/-- C10: the sampled value depends only on the low mantissa bits of the
draw: raw inputs agreeing on the masked bits give identical outputs for all
three samplers at both precisions. -/
theorem C10_mask_only :
    ∀ r1 r2 : ℕ,
      (r1 &&& LOWER_MASK32 = r2 &&& LOWER_MASK32 →
        sampleUniform32 r1 = sampleUniform32 r2
        ∧ sampleOpen32 r1 = sampleOpen32 r2
        ∧ sampleClosed32 r1 = sampleClosed32 r2)
      ∧ (r1 &&& LOWER_MASK64 = r2 &&& LOWER_MASK64 →
        sampleUniform64 r1 = sampleUniform64 r2
        ∧ sampleOpen64 r1 = sampleOpen64 r2
        ∧ sampleClosed64 r1 = sampleClosed64 r2) := by
  intro r1 r2
  constructor
  · intro h
    have hu : sampleUniform32 r1 = sampleUniform32 r2 := by
      simp only [sampleUniform32, h]
    exact ⟨hu, by rw [sampleOpen32, sampleOpen32, hu],
      by rw [sampleClosed32, sampleClosed32, hu]⟩
  · intro h
    have hu : sampleUniform64 r1 = sampleUniform64 r2 := by
      simp only [sampleUniform64, h]
    exact ⟨hu, by rw [sampleOpen64, sampleOpen64, hu],
      by rw [sampleClosed64, sampleClosed64, hu]⟩

/-- Witness for C10: inputs 5 and a value with extra high bits set agree on
the masked bits and give the same sample. -/
theorem C10_mask_only_witness :
    sampleUniform32 5 = sampleUniform32 0xFF800005
    ∧ sampleUniform64 5 = sampleUniform64 0xFFF0000000000005 :=
  ⟨((C10_mask_only 5 0xFF800005).1 (by decide)).1,
   ((C10_mask_only 5 0xFFF0000000000005).2 (by decide)).1⟩

theorem log32_q : Int.log 2 ((1:ℚ) / (2 ^ (23 : ℕ) - 1)) = -23 := by
  have hq : (0:ℚ) < 1 / (2 ^ (23 : ℕ) - 1) := by norm_num
  have h1 : ((2:ℕ):ℚ) ^ (-23 : ℤ) ≤ 1 / (2 ^ (23 : ℕ) - 1) := by
    rw [show (((2:ℕ):ℚ)) = 2 by norm_num,
      show ((2:ℚ)) ^ (-23 : ℤ) = ((2:ℚ) ^ (23 : ℕ))⁻¹ by norm_num]
    norm_num
  have h2 : (1:ℚ) / (2 ^ (23 : ℕ) - 1) < ((2:ℕ):ℚ) ^ (-22 : ℤ) := by
    rw [show (((2:ℕ):ℚ)) = 2 by norm_num,
      show ((2:ℚ)) ^ (-22 : ℤ) = ((2:ℚ) ^ (22 : ℕ))⁻¹ by norm_num]
    norm_num
  have ha := (Int.zpow_le_iff_le_log (by norm_num) hq).mp h1
  have hb := (Int.lt_zpow_iff_log_lt (by norm_num) hq).mp h2
  omega

theorem log64_q : Int.log 2 ((1:ℚ) / (2 ^ (52 : ℕ) - 1)) = -52 := by
  have hq : (0:ℚ) < 1 / (2 ^ (52 : ℕ) - 1) := by norm_num
  have h1 : ((2:ℕ):ℚ) ^ (-52 : ℤ) ≤ 1 / (2 ^ (52 : ℕ) - 1) := by
    rw [show (((2:ℕ):ℚ)) = 2 by norm_num,
      show ((2:ℚ)) ^ (-52 : ℤ) = ((2:ℚ) ^ (52 : ℕ))⁻¹ by norm_num]
    norm_num
  have h2 : (1:ℚ) / (2 ^ (52 : ℕ) - 1) < ((2:ℕ):ℚ) ^ (-51 : ℤ) := by
    rw [show (((2:ℕ):ℚ)) = 2 by norm_num,
      show ((2:ℚ)) ^ (-51 : ℤ) = ((2:ℚ) ^ (51 : ℕ))⁻¹ by norm_num]
    norm_num
  have ha := (Int.zpow_le_iff_le_log (by norm_num) hq).mp h1
  have hb := (Int.lt_zpow_iff_log_lt (by norm_num) hq).mp h2
  omega

/-- C8: when the draw is 1, the Closed01 result lies strictly between one
machine epsilon and 1.01 machine epsilons, at both precisions. -/
theorem C8_closed_one :
    EPSILON32 < sampleClosed32 1 ∧ sampleClosed32 1 < (101/100) * EPSILON32
    ∧ EPSILON64 < sampleClosed64 1 ∧ sampleClosed64 1 < (101/100) * EPSILON64 := by
  have h32 : sampleClosed32 1 = round32 ((1:ℚ) / (2 ^ (23 : ℕ) - 1)) := by
    rw [sampleClosed32_eq, show (1 &&& LOWER_MASK32) = 1 from by decide,
      Nat.cast_one]
  have h64 : sampleClosed64 1 = round64 ((1:ℚ) / (2 ^ (52 : ℕ) - 1)) := by
    rw [sampleClosed64_eq, show (1 &&& LOWER_MASK64) = 1 from by decide,
      Nat.cast_one]
  have hq32 : (0:ℚ) < 1 / (2 ^ (23 : ℕ) - 1) := by norm_num
  have hq64 : (0:ℚ) < 1 / (2 ^ (52 : ℕ) - 1) := by norm_num
  have hK32 : ulpExp 23 (-149) ((1:ℚ) / (2 ^ (23 : ℕ) - 1)) = -46 := by
    rw [ulpExp, abs_of_pos hq32, log32_q]
    omega
  have hK64 : ulpExp 52 (-1074) ((1:ℚ) / (2 ^ (52 : ℕ) - 1)) = -104 := by
    rw [ulpExp, abs_of_pos hq64, log64_q]
    omega
  have hb32 : (2:ℚ) ^ (ulpExp 23 (-149) ((1:ℚ) / (2 ^ (23 : ℕ) - 1)) - 1)
      = ((2:ℚ) ^ (47 : ℕ))⁻¹ := by
    rw [hK32]
    norm_num
  have hb64 : (2:ℚ) ^ (ulpExp 52 (-1074) ((1:ℚ) / (2 ^ (52 : ℕ) - 1)) - 1)
      = ((2:ℚ) ^ (105 : ℕ))⁻¹ := by
    rw [hK64]
    norm_num
  have herr32 := fpRound_abs_sub 23 (-149) ((1:ℚ) / (2 ^ (23 : ℕ) - 1))
  have herr64 := fpRound_abs_sub 52 (-1074) ((1:ℚ) / (2 ^ (52 : ℕ) - 1))
  rw [hb32, abs_le] at herr32
  rw [hb64, abs_le] at herr64
  obtain ⟨he32l, he32u⟩ := herr32
  obtain ⟨he64l, he64u⟩ := herr64
  have hr32 : round32 ((1:ℚ) / (2 ^ (23 : ℕ) - 1))
      = fpRound 23 (-149) ((1:ℚ) / (2 ^ (23 : ℕ) - 1)) := rfl
  have hr64 : round64 ((1:ℚ) / (2 ^ (52 : ℕ) - 1))
      = fpRound 52 (-1074) ((1:ℚ) / (2 ^ (52 : ℕ) - 1)) := rfl
  have heps32 : EPSILON32 = ((2:ℚ) ^ (23 : ℕ))⁻¹ := by
    rw [EPSILON32]
    norm_num
  have heps64 : EPSILON64 = ((2:ℚ) ^ (52 : ℕ))⁻¹ := by
    rw [EPSILON64]
    norm_num
  have hnum32a : ((2:ℚ) ^ (23 : ℕ))⁻¹ + ((2:ℚ) ^ (47 : ℕ))⁻¹
      < 1 / (2 ^ (23 : ℕ) - 1) := by norm_num
  have hnum32b : 1 / ((2:ℚ) ^ (23 : ℕ) - 1) + ((2:ℚ) ^ (47 : ℕ))⁻¹
      < (101/100) * ((2:ℚ) ^ (23 : ℕ))⁻¹ := by norm_num
  have hnum64a : ((2:ℚ) ^ (52 : ℕ))⁻¹ + ((2:ℚ) ^ (105 : ℕ))⁻¹
      < 1 / (2 ^ (52 : ℕ) - 1) := by norm_num
  have hnum64b : 1 / ((2:ℚ) ^ (52 : ℕ) - 1) + ((2:ℚ) ^ (105 : ℕ))⁻¹
      < (101/100) * ((2:ℚ) ^ (52 : ℕ))⁻¹ := by norm_num
  refine ⟨?_, ?_, ?_, ?_⟩
  · rw [h32, hr32, heps32]
    linarith
  · rw [h32, hr32, heps32]
    linarith
  · rw [h64, hr64, heps64]
    linarith
  · rw [h64, hr64, heps64]
    linarith

end RandFloat
